import Mathlib

/-!
Verification of the memory extension (`src/.pi/extensions/memory/index.ts`)
of the slim-pa repository.

The memory store is a flat text file read as a list of lines
(`content.split("\n")`), written by appending `text + "\n"` (with a
separator `"\n"` when the existing content does not end in a newline),
searched by a hybrid exact/fuzzy scorer, and addressed by a line-selector
expression.  Strings are embedded as `List Char`, JS numbers appearing in
scores as `ℚ`, and line numbers as `Int`/`ℕ`.
-/

namespace SlimPA

/-- Whitespace test mirroring the character class matched by the regex
used in `split(/\s+/)` (ASCII portion). -/
def isWs (c : Char) : Bool :=
  c == ' ' || c == '\t' || c == '\n' || c == '\r' || c == '\x0b' || c == '\x0c'

/-- Model of JS `String.prototype.toLowerCase` (ASCII case folding). -/
def lowerStr (s : List Char) : List Char :=
  s.map Char.toLower

/-- Model of JS `hay.includes(needle)`: substring containment. -/
def jsIncludes (hay needle : List Char) : Bool :=
  (List.range (hay.length + 1)).any (fun i => needle.isPrefixOf (hay.drop i))

/-- Model of JS `s.split(sep)` for a single-character separator `sep`
(as used for `content.split("\n")`, `trimmed.split("-")`,
`trimmed.split(",")`).  `split` of the empty string is `[""]` and a
trailing separator yields a trailing empty component. -/
def splitOnC (sep : Char) : List Char → List (List Char)
  | [] => [[]]
  | c :: rest =>
    if c = sep then [] :: splitOnC sep rest
    else
      match splitOnC sep rest with
      | [] => [[c]]
      | h :: t => (c :: h) :: t

/-- Splitting the backing file content on `"\n"`. -/
def splitNl (s : List Char) : List (List Char) :=
  splitOnC '\n' s

/-- Model of JS `s.split(/\s+/)`: maximal whitespace runs separate the
components; leading/trailing whitespace contributes an empty component,
and the empty string splits to `[""]`. -/
def jsSplitWs : List Char → List (List Char)
  | [] => [[]]
  | c :: rest =>
    if isWs c then [] :: jsSplitWs (rest.dropWhile (fun d => isWs d))
    else
      match jsSplitWs rest with
      | [] => [[c]]
      | h :: t => (c :: h) :: t
termination_by s => s.length
decreasing_by
  · exact Nat.lt_succ_of_le (List.dropWhile_sublist _).length_le
  · exact Nat.lt_succ_self _

/-- Model of JS `s.trim()`. -/
def trimWs (s : List Char) : List Char :=
  ((s.dropWhile (fun c => isWs c)).reverse.dropWhile (fun c => isWs c)).reverse

/-- Levenshtein edit distance (unit-cost insert/delete/substitute), the
function computed by `distance` from the package fastest-levenshtein. -/
def levDist : List Char → List Char → ℕ
  | [], ys => ys.length
  | x :: xs, [] => (x :: xs).length
  | x :: xs, y :: ys =>
    if x = y then levDist xs ys
    else 1 + min (levDist xs (y :: ys)) (min (levDist (x :: xs) ys) (levDist xs ys))
termination_by a b => a.length + b.length
decreasing_by all_goals simp_arith

/-- Score contributed by one (query word, line word) pair inside the
exact-substring branch: `+5` if equal, else `+2` if either word contains
the other. -/
def wordPairBonus (qw w : List Char) : ℚ :=
  if w = qw then 5
  else if jsIncludes w qw || jsIncludes qw w then 2 else 0

/-- Inner loop of the word-boundary bonus: one query word against every
line word. -/
def rowBonus (qw : List Char) : List (List Char) → ℚ
  | [] => 0
  | w :: ws => wordPairBonus qw w + rowBonus qw ws

/-- Word-boundary bonus of the exact-substring branch: every query word
against every line word. -/
def exactBonus : List (List Char) → List (List Char) → ℚ
  | [], _ => 0
  | qw :: qws, ws => rowBonus qw ws + exactBonus qws ws

/-- Fuzzy-fallback similarity contribution: edit distance of the first
100 characters of (lowercased) line and query, normalised by the larger
of the two full lengths; contributes `similarity * 3` when
`similarity > 0.5`. -/
def fuzzyContribution (q ll : List Char) : ℚ :=
  if 0 < max ll.length q.length then
    if (1 : ℚ)/2 < 1 - (levDist (ll.take 100) (q.take 100) : ℚ) / (max ll.length q.length : ℚ)
    then (1 - (levDist (ll.take 100) (q.take 100) : ℚ) / (max ll.length q.length : ℚ)) * 3
    else 0
  else 0

/-- Score contributed by one (query word, line word) pair inside the
fuzzy branch: `+2` when the normalised word edit distance is below 0.4. -/
def wordPairFuzzy (qw lw : List Char) : ℚ :=
  if 0 < max qw.length lw.length ∧
      (levDist qw lw : ℚ) / (max qw.length lw.length : ℚ) < 2/5
  then 2 else 0

/-- Inner loop of the fuzzy word matching. -/
def rowFuzzy (qw : List Char) : List (List Char) → ℚ
  | [] => 0
  | lw :: lws => wordPairFuzzy qw lw + rowFuzzy qw lws

/-- Fuzzy word matching of the non-exact branch: every query word
against every line word. -/
def wordContribution : List (List Char) → List (List Char) → ℚ
  | [], _ => 0
  | qw :: qws, lws => rowFuzzy qw lws + wordContribution qws lws

/-- Relevance score of one line for an already-lowercased query `q`,
mirroring the scoring loop inside the execute function of `memory_search`. -/
def scoreLine (q line : List Char) : ℚ :=
  if jsIncludes (lowerStr line) q then
    10 + exactBonus (jsSplitWs q) (jsSplitWs (lowerStr line))
  else
    fuzzyContribution q (lowerStr line) +
      wordContribution (jsSplitWs q) (jsSplitWs (lowerStr line))

/-- A scored line as accumulated in the `matches` array. -/
structure MatchRec where
  lineNumber : ℕ
  text : List Char
  score : ℚ
deriving DecidableEq, Repr

/-- The scoring loop: lines are scored in order, 1-based line numbers,
and only lines with positive score are kept. -/
def buildMatches (q : List Char) : ℕ → List (List Char) → List MatchRec
  | _, [] => []
  | i, l :: ls =>
    if 0 < scoreLine q l then ⟨i + 1, l, scoreLine q l⟩ :: buildMatches q (i + 1) ls
    else buildMatches q (i + 1) ls

/-- Stable insertion (descending by score) modelling the stable JS
`Array.prototype.sort` with comparator `(a, b) => b.score - a.score`:
an element is placed after every already-sorted element of strictly
larger or equal score coming earlier in the original order. -/
def insertDesc (x : MatchRec) : List MatchRec → List MatchRec
  | [] => [x]
  | y :: ys => if x.score < y.score then y :: insertDesc x ys else x :: y :: ys

/-- Stable sort, descending by score. -/
def sortDesc : List MatchRec → List MatchRec
  | [] => []
  | x :: xs => insertDesc x (sortDesc xs)

/-- Model of JS `arr.slice(0, e)` including the negative-end case, where
the end index counts from the end of the array. -/
def jsSliceTo (l : List MatchRec) (e : Int) : List MatchRec :=
  l.take (if e < 0 then ((l.length : Int) + e).toNat else e.toNat)

/-- The value taken by `maxResults` after
`(params.max_results as number) || 10`: a missing value or `0` becomes
`10`, every other number (negative ones included, which are truthy in
JS) passes through. -/
def effectiveMax (maxResults : Option Int) : Int :=
  match maxResults with
  | none => 10
  | some v => if v = 0 then 10 else v

/-- The `memory_search` pipeline on a given log: lowercase the query,
default `max_results`, score, filter, stable-sort descending, and
slice. -/
def memorySearch (query : List Char) (lines : List (List Char))
    (maxResults : Option Int) : List MatchRec :=
  jsSliceTo (sortDesc (buildMatches (lowerStr query) 0 lines)) (effectiveMax maxResults)

/-- Value of a digit string (the leading-digit prefix consumed by
`parseInt`). -/
def digitsToNat (l : List Char) : ℕ :=
  l.foldl (fun a c => 10 * a + (c.toNat - ('0').toNat)) 0

/-- The digit prefix consumed by `parseInt`; `none` when there is no
leading digit (the `NaN` outcome). -/
def parseDigits (l : List Char) : Option ℕ :=
  let ds := l.takeWhile Char.isDigit
  if ds.isEmpty then none else some (digitsToNat ds)

/-- Model of JS `parseInt(s, 10)`: skip leading whitespace, optional
sign, then a digit prefix; `none` models `NaN`.  Trailing non-digit
characters are ignored. -/
def parseIntJS (s : List Char) : Option Int :=
  match s.dropWhile (fun c => isWs c) with
  | '-' :: rest => (parseDigits rest).map (fun n => -(n : Int))
  | '+' :: rest => (parseDigits rest).map (fun n => (n : Int))
  | t => (parseDigits t).map (fun n => (n : Int))

/-- The inclusive enumeration `for (let i = start; i <= end; i++)`;
empty when `b < a`. -/
def rangeList (a b : Int) : List Int :=
  (List.range (b - a + 1).toNat).map (fun k => a + (k : Int))

/-- Parsing of the string form of the `lines` parameter of `memory_get`:
a range when the trimmed input contains `-`, else a comma-separated
list when it contains `,`, else a single number.  Unparseable tokens
are dropped. -/
def parseSelector (s : List Char) : List Int :=
  let t := trimWs s
  if t.contains '-' then
    let parts := splitOnC '-' t
    match parseIntJS (trimWs (parts.getD 0 [])), parseIntJS (trimWs (parts.getD 1 [])) with
    | some a, some b => rangeList a b
    | _, _ => []
  else if t.contains ',' then
    (splitOnC ',' t).filterMap (fun p => parseIntJS (trimWs p))
  else
    match parseIntJS t with
    | some n => [n]
    | none => []

/-- Deduplication keeping first occurrences, the behaviour of
`[...new Set(lineNumbers)]`; `seen` accumulates the values already
emitted. -/
def dedupGo (seen : List Int) : List Int → List Int
  | [] => []
  | x :: xs => if x ∈ seen then dedupGo seen xs else x :: dedupGo (x :: seen) xs

/-- `[...new Set(l)]`. -/
def dedupFirst (l : List Int) : List Int :=
  dedupGo [] l

/-- Ordered insertion, ascending. -/
def insertAsc (x : Int) : List Int → List Int
  | [] => [x]
  | y :: ys => if y ≤ x then y :: insertAsc x ys else x :: y :: ys

/-- Insertion sort ascending, modelling `.sort((a, b) => a - b)`. -/
def sortAsc : List Int → List Int
  | [] => []
  | x :: xs => insertAsc x (sortAsc xs)

/-- `[...new Set(lineNumbers)].sort((a, b) => a - b)`: the resolved
Line Selector. -/
def dedupSort (l : List Int) : List Int :=
  sortAsc (dedupFirst l)

/-- The distinguishable outcomes of `memory_get`: the missing-file
message, the invalid-selector error, the all-out-of-range message, and
the success payload of `{line, text}` pairs. -/
inductive GetResult where
  | emptyLog : GetResult
  | invalidSelector : GetResult
  | noneInRange (totalLines : ℕ) : GetResult
  | ok (results : List (ℕ × List Char)) : GetResult
deriving DecidableEq, Repr

/-- The `{line, text}` pairs collected by `memory_get`: deduplicated
and sorted line numbers filtered to `[1, log length]`, each paired with
the 0-indexed lookup into the log. -/
def selResults (nums : List Int) (log : List (List Char)) : List (ℕ × List Char) :=
  (dedupSort nums).filterMap (fun n =>
    if 1 ≤ n ∧ n ≤ (log.length : Int) then some (n.toNat, log.getD (n.toNat - 1) [])
    else none)

/-- The part of `memory_get` shared by the string and array input
forms: reject an empty number list as an invalid selector, then report
`noneInRange` when no resolved number is within bounds, else succeed. -/
def memoryGetCore (nums : List Int) (log : List (List Char)) : GetResult :=
  if nums.isEmpty then GetResult.invalidSelector
  else if (selResults nums log).isEmpty then GetResult.noneInRange log.length
  else GetResult.ok (selResults nums log)

/-- `memory_get` with a string selector. -/
def memoryGetStr (sel : List Char) (log : List (List Char)) : GetResult :=
  if log.isEmpty then GetResult.emptyLog else memoryGetCore (parseSelector sel) log

/-- `memory_get` with an array of line numbers. -/
def memoryGetArr (nums : List Int) (log : List (List Char)) : GetResult :=
  if log.isEmpty then GetResult.emptyLog else memoryGetCore nums log

/-- Whether the file content ends with a newline (`content.endsWith("\n")`,
false for the empty content). -/
def endsWithNl (s : List Char) : Bool :=
  match s.getLast? with
  | some c => c = '\n'
  | none => false

/-- The backing store: `none` when the file does not exist, otherwise
its content. -/
def appendMem (st : Option (List Char)) (t : List Char) : List Char :=
  match st with
  | none => t ++ ['\n']
  | some c => if endsWithNl c then c ++ (t ++ ['\n']) else c ++ ('\n' :: (t ++ ['\n']))

/-- `readMemoryFile`: empty sequence when the file does not exist,
otherwise the content split on `"\n"`. -/
def readAll (st : Option (List Char)) : List (List Char) :=
  match st with
  | none => []
  | some c => splitNl c

/-! ### Structure of `splitOnC` -/

lemma splitOnC_ne_nil (sep : Char) (s : List Char) : splitOnC sep s ≠ [] := by
  induction s with
  | nil => simp [splitOnC]
  | cons c rest ih =>
    simp only [splitOnC]
    split
    · simp
    · cases h : splitOnC sep rest with
      | nil => simp
      | cons hd tl => simp [h]

lemma splitOnC_append_sep (sep : Char) (ys zs : List Char) :
    splitOnC sep (ys ++ sep :: zs) = splitOnC sep ys ++ splitOnC sep zs := by
  induction ys with
  | nil => simp [splitOnC]
  | cons c ys ih =>
    by_cases hc : c = sep
    · subst hc
      simp [splitOnC, ih]
    · simp only [List.cons_append, splitOnC, if_neg hc, List.append_eq]
      rw [ih]
      cases h : splitOnC sep ys with
      | nil => exact absurd h (splitOnC_ne_nil sep ys)
      | cons hd tl => simp

lemma splitOnC_concat_sep (sep : Char) (ys : List Char) :
    splitOnC sep (ys ++ [sep]) = splitOnC sep ys ++ [[]] := by
  simpa using splitOnC_append_sep sep ys []

lemma splitOnC_length (sep : Char) (s : List Char) :
    (splitOnC sep s).length = s.count sep + 1 := by
  induction s with
  | nil => simp [splitOnC]
  | cons c rest ih =>
    by_cases hc : c = sep
    · subst hc
      simp [splitOnC, ih, List.count_cons]
    · simp only [splitOnC, if_neg hc]
      cases h : splitOnC sep rest with
      | nil => exact absurd h (splitOnC_ne_nil sep rest)
      | cons hd tl =>
        rw [h] at ih
        have hcnt : List.count sep (c :: rest) = List.count sep rest := by
          simp [List.count_cons, beq_iff_eq, Ne.symm hc]
        rw [hcnt]
        simpa using ih

/-! ### Bounds on the score components -/

lemma wordPairBonus_nonneg (qw w : List Char) : 0 ≤ wordPairBonus qw w := by
  unfold wordPairBonus
  split
  · norm_num
  · split <;> norm_num

lemma rowBonus_nonneg (qw : List Char) (ws : List (List Char)) : 0 ≤ rowBonus qw ws := by
  induction ws with
  | nil => simp [rowBonus]
  | cons w ws ih => exact add_nonneg (wordPairBonus_nonneg qw w) ih

lemma exactBonus_nonneg (qws ws : List (List Char)) : 0 ≤ exactBonus qws ws := by
  induction qws with
  | nil => simp [exactBonus]
  | cons qw qws ih => exact add_nonneg (rowBonus_nonneg qw ws) ih

lemma jsIncludes_nil (hay : List Char) : jsIncludes hay [] = true := by
  simp only [jsIncludes, List.any_eq_true]
  exact ⟨0, List.mem_range.mpr (Nat.succ_pos _), List.isPrefixOf_nil_left⟩

lemma fuzzyContribution_le_three (q ll : List Char) : fuzzyContribution q ll ≤ 3 := by
  unfold fuzzyContribution
  split
  · rename_i hm
    split
    · rename_i hs
      have hd : (0 : ℚ) ≤ (levDist (ll.take 100) (q.take 100) : ℚ) := Nat.cast_nonneg _
      have hm' : (0 : ℚ) < (max ll.length q.length : ℚ) := by exact_mod_cast hm
      have hq : (0 : ℚ) ≤ (levDist (ll.take 100) (q.take 100) : ℚ) / (max ll.length q.length : ℚ) :=
        div_nonneg hd (le_of_lt hm')
      nlinarith
    · norm_num
  · norm_num

lemma scoreLine_ge_ten {q line : List Char} (h : jsIncludes (lowerStr line) q = true) :
    10 ≤ scoreLine q line := by
  unfold scoreLine
  rw [if_pos h]
  have := exactBonus_nonneg (jsSplitWs q) (jsSplitWs (lowerStr line))
  linarith

/-! ### Stable descending sort -/

/-- The order established by the stable descending sort of the search
results: strictly larger score first, with original line order breaking
ties. -/
def rankRel (a b : MatchRec) : Prop :=
  b.score < a.score ∨ (a.score = b.score ∧ a.lineNumber < b.lineNumber)

lemma insertDesc_perm (x : MatchRec) (l : List MatchRec) :
    List.Perm (insertDesc x l) (x :: l) := by
  induction l with
  | nil => exact List.Perm.refl _
  | cons y ys ih =>
    simp only [insertDesc]
    split
    · exact (ih.cons y).trans (List.Perm.swap x y ys)
    · exact List.Perm.refl _

lemma sortDesc_perm (l : List MatchRec) : List.Perm (sortDesc l) l := by
  induction l with
  | nil => exact List.Perm.refl _
  | cons x xs ih => exact (insertDesc_perm x (sortDesc xs)).trans (ih.cons x)

lemma insertDesc_pairwise {x : MatchRec} {l : List MatchRec}
    (hl : l.Pairwise rankRel) (hx : ∀ y ∈ l, x.lineNumber < y.lineNumber) :
    (insertDesc x l).Pairwise rankRel := by
  induction l with
  | nil => simp [insertDesc]
  | cons y ys ih =>
    rcases List.pairwise_cons.mp hl with ⟨hy, hys⟩
    simp only [insertDesc]
    split
    · rename_i hlt
      refine List.pairwise_cons.mpr ⟨?_, ih hys (fun z hz => hx z (List.mem_cons_of_mem y hz))⟩
      intro z hz
      rcases List.mem_cons.mp ((insertDesc_perm x ys).mem_iff.mp hz) with rfl | hzys
      · exact Or.inl hlt
      · exact hy z hzys
    · rename_i hge
      have hyx : y.score ≤ x.score := not_lt.mp hge
      refine List.pairwise_cons.mpr ⟨?_, hl⟩
      intro z hz
      rcases List.mem_cons.mp hz with rfl | hzys
      · rcases lt_or_eq_of_le hyx with h | h
        · exact Or.inl h
        · exact Or.inr ⟨h.symm, hx z (List.mem_cons_self z ys)⟩
      · rcases hy z hzys with h | ⟨heq, _⟩
        · exact Or.inl (lt_of_lt_of_le h hyx)
        · rcases lt_or_eq_of_le hyx with h2 | h2
          · exact Or.inl (heq ▸ h2)
          · exact Or.inr ⟨by rw [← h2, heq], hx z (List.mem_cons_of_mem y hzys)⟩

lemma sortDesc_pairwise {l : List MatchRec}
    (hl : l.Pairwise (fun a b => a.lineNumber < b.lineNumber)) :
    (sortDesc l).Pairwise rankRel := by
  induction l with
  | nil => simp [sortDesc]
  | cons x xs ih =>
    rcases List.pairwise_cons.mp hl with ⟨hx, hxs⟩
    exact insertDesc_pairwise (ih hxs) (fun y hy => hx y ((sortDesc_perm xs).mem_iff.mp hy))

/-! ### The scoring loop -/

lemma buildMatches_mem {q : List Char} {i : ℕ} {ls : List (List Char)} {m : MatchRec}
    (hm : m ∈ buildMatches q i ls) : i < m.lineNumber ∧ 0 < m.score := by
  induction ls generalizing i with
  | nil => simp [buildMatches] at hm
  | cons l ls ih =>
    simp only [buildMatches] at hm
    split at hm
    · rename_i hs
      rcases List.mem_cons.mp hm with rfl | hm'
      · exact ⟨Nat.lt_succ_self i, hs⟩
      · have h := ih hm'
        exact ⟨Nat.lt_of_succ_lt h.1, h.2⟩
    · have h := ih hm
      exact ⟨Nat.lt_of_succ_lt h.1, h.2⟩

lemma buildMatches_pairwise (q : List Char) (i : ℕ) (ls : List (List Char)) :
    (buildMatches q i ls).Pairwise (fun a b => a.lineNumber < b.lineNumber) := by
  induction ls generalizing i with
  | nil => simp [buildMatches]
  | cons l ls ih =>
    simp only [buildMatches]
    split
    · exact List.pairwise_cons.mpr ⟨fun m hm => (buildMatches_mem hm).1, ih (i + 1)⟩
    · exact ih (i + 1)

lemma buildMatches_length_pos {q : List Char} {ls : List (List Char)}
    (h : ∀ l ∈ ls, 0 < scoreLine q l) (i : ℕ) :
    (buildMatches q i ls).length = ls.length := by
  induction ls generalizing i with
  | nil => rfl
  | cons l ls ih =>
    simp only [buildMatches, if_pos (h l (List.mem_cons_self l ls))]
    simp [ih (fun x hx => h x (List.mem_cons_of_mem l hx)) (i + 1)]

/-! ### Deduplication and ascending sort of line numbers -/

lemma dedupGo_mem {seen : List Int} {l : List Int} {m : Int}
    (hm : m ∈ dedupGo seen l) : m ∈ l ∧ m ∉ seen := by
  induction l generalizing seen with
  | nil => simp [dedupGo] at hm
  | cons x xs ih =>
    simp only [dedupGo] at hm
    split at hm
    · have h := ih hm
      exact ⟨List.mem_cons_of_mem x h.1, h.2⟩
    · rename_i hns
      rcases List.mem_cons.mp hm with rfl | hm'
      · exact ⟨List.mem_cons_self m xs, hns⟩
      · have h := ih hm'
        have hne : m ∉ seen := fun hmem => h.2 (List.mem_cons_of_mem x hmem)
        exact ⟨List.mem_cons_of_mem x h.1, hne⟩

lemma dedupGo_nodup (seen : List Int) (l : List Int) : (dedupGo seen l).Nodup := by
  induction l generalizing seen with
  | nil => simp [dedupGo]
  | cons x xs ih =>
    simp only [dedupGo]
    split
    · exact ih seen
    · refine List.nodup_cons.mpr ⟨?_, ih (x :: seen)⟩
      intro hmem
      exact (dedupGo_mem hmem).2 (List.mem_cons_self x seen)

lemma insertAsc_perm (x : Int) (l : List Int) : List.Perm (insertAsc x l) (x :: l) := by
  induction l with
  | nil => exact List.Perm.refl _
  | cons y ys ih =>
    simp only [insertAsc]
    split
    · exact (ih.cons y).trans (List.Perm.swap x y ys)
    · exact List.Perm.refl _

lemma sortAsc_perm (l : List Int) : List.Perm (sortAsc l) l := by
  induction l with
  | nil => exact List.Perm.refl _
  | cons x xs ih => exact (insertAsc_perm x (sortAsc xs)).trans (ih.cons x)

lemma insertAsc_pairwise_le {x : Int} {l : List Int}
    (hl : l.Pairwise (· ≤ ·)) : (insertAsc x l).Pairwise (· ≤ ·) := by
  induction l with
  | nil => simp [insertAsc]
  | cons y ys ih =>
    rcases List.pairwise_cons.mp hl with ⟨hy, hys⟩
    simp only [insertAsc]
    split
    · rename_i hle
      refine List.pairwise_cons.mpr ⟨?_, ih hys⟩
      intro z hz
      rcases List.mem_cons.mp ((insertAsc_perm x ys).mem_iff.mp hz) with rfl | hzys
      · exact hle
      · exact hy z hzys
    · rename_i hgt
      have hxy : x ≤ y := le_of_lt (not_le.mp hgt)
      refine List.pairwise_cons.mpr ⟨?_, hl⟩
      intro z hz
      rcases List.mem_cons.mp hz with rfl | hzys
      · exact hxy
      · exact le_trans hxy (hy z hzys)

lemma sortAsc_pairwise_le (l : List Int) : (sortAsc l).Pairwise (· ≤ ·) := by
  induction l with
  | nil => simp [sortAsc]
  | cons x xs ih => exact insertAsc_pairwise_le ih

lemma dedupSort_pairwise_lt (l : List Int) : (dedupSort l).Pairwise (· < ·) := by
  have hnd : (sortAsc (dedupFirst l)).Nodup :=
    ((sortAsc_perm (dedupFirst l)).nodup_iff).mpr (dedupGo_nodup [] l)
  have hle := sortAsc_pairwise_le (dedupFirst l)
  have := List.Pairwise.and hle hnd
  exact this.imp (fun h => lt_of_le_of_ne h.1 h.2)

/-! ### The backing file after an append -/

lemma endsWithNl_concat (s : List Char) : endsWithNl (s ++ ['\n']) = true := by
  simp [endsWithNl]

lemma appendMem_concat (st : Option (List Char)) (t : List Char) :
    ∃ d, appendMem st t = d ++ ['\n'] := by
  cases st with
  | none => exact ⟨t, rfl⟩
  | some c =>
    simp only [appendMem]
    split
    · exact ⟨c ++ t, by simp⟩
    · exact ⟨c ++ '\n' :: t, by simp⟩

lemma splitNl_concat (d : List Char) : splitNl (d ++ ['\n']) = splitNl d ++ [[]] :=
  splitOnC_concat_sep '\n' d

lemma splitNl_ne_nil (s : List Char) : splitNl s ≠ [] :=
  splitOnC_ne_nil '\n' s

lemma getD_concat {α : Type} (xs : List α) (y d : α) : (xs ++ [y]).getD xs.length d = y := by
  induction xs with
  | nil => rfl
  | cons a as ih => simp [ih]

lemma splitNl_length (s : List Char) : (splitNl s).length = s.count '\n' + 1 :=
  splitOnC_length '\n' s

/-! ### Claims -/

/-- Claim C3: when the lowercased line does not contain the lowercased
query, the scorer adds `similarity * 3` exactly when `similarity > 0.5`,
where `similarity = 1 - levDist(line[:100], query[:100]) / max(|line|, |query|)`:
the 100-character truncation applies to the edit-distance operands but
not to the normalising denominator.  The rest of the score is the fuzzy
word-matching contribution. -/
theorem c3_fuzzy_formula (q l : List Char)
    (h : jsIncludes (lowerStr l) (lowerStr q) = false) :
    scoreLine (lowerStr q) l =
      (if (1 : ℚ)/2 <
          1 - (levDist ((lowerStr l).take 100) ((lowerStr q).take 100) : ℚ) /
            (max (lowerStr l).length (lowerStr q).length : ℚ)
       then (1 - (levDist ((lowerStr l).take 100) ((lowerStr q).take 100) : ℚ) /
            (max (lowerStr l).length (lowerStr q).length : ℚ)) * 3
       else 0) +
        wordContribution (jsSplitWs (lowerStr q)) (jsSplitWs (lowerStr l)) := by
  have hq : lowerStr q ≠ [] := by
    intro hq
    rw [hq, jsIncludes_nil] at h
    simp at h
  have hm : 0 < max (lowerStr l).length (lowerStr q).length :=
    lt_of_lt_of_le (List.length_pos.mpr hq) (le_max_right _ _)
  unfold scoreLine
  rw [if_neg (by simp [h])]
  unfold fuzzyContribution
  rw [if_pos hm]

/-- Witness for C3 at a concrete non-containing pair: query `abcdefgh`,
line `abcdefgx`. -/
theorem c3_fuzzy_formula_witness :
    jsIncludes (lowerStr (("abcdefgx").toList)) (lowerStr (("abcdefgh").toList)) = false ∧
      scoreLine (lowerStr (("abcdefgh").toList)) (("abcdefgx").toList) = 37/8 :=
  ⟨by decide,
    (c3_fuzzy_formula (("abcdefgh").toList) (("abcdefgx").toList) (by decide)).trans
      (by with_unfolding_all decide)⟩

/-- Claim C4: search results are sorted by score in descending order,
two returned lines of equal score appear in the order of their line
numbers (the sort is stable), and no line of computed score 0 is
included. -/
theorem c4_search_sorted_stable_nonzero (query : List Char) (lines : List (List Char))
    (maxResults : Option Int) :
    ((memorySearch query lines maxResults).Pairwise fun a b =>
        b.score < a.score ∨ (a.score = b.score ∧ a.lineNumber < b.lineNumber)) ∧
      ∀ m ∈ memorySearch query lines maxResults, m.score ≠ 0 := by
  have hsub : List.Sublist (memorySearch query lines maxResults)
      (sortDesc (buildMatches (lowerStr query) 0 lines)) := List.take_sublist _ _
  constructor
  · have hp := sortDesc_pairwise (buildMatches_pairwise (lowerStr query) 0 lines)
    exact hp.sublist hsub
  · intro m hm
    have hmem : m ∈ sortDesc (buildMatches (lowerStr query) 0 lines) := hsub.subset hm
    have hb : m ∈ buildMatches (lowerStr query) 0 lines :=
      (sortDesc_perm _).mem_iff.mp hmem
    exact (buildMatches_mem hb).2.ne'

/-- Claim C6: a range selector whose start exceeds its end enumerates
nothing: the parsed selector is empty (the empty ascending range), as
for `"3-1"`. -/
theorem c6_reversed_range_empty :
    (∀ s e : Int, e < s → rangeList s e = []) ∧
      parseSelector (("3-1").toList) = [] ∧
      dedupSort (parseSelector (("3-1").toList)) = [] := by
  refine ⟨?_, by decide, by decide⟩
  intro s e he
  unfold rangeList
  rw [Int.toNat_of_nonpos (by omega)]
  rfl

/-- Witness for C6 at the concrete reversed range `3-1`. -/
theorem c6_reversed_range_empty_witness :
    (1 : Int) < 3 ∧ rangeList 3 1 = [] :=
  ⟨by decide, c6_reversed_range_empty.1 3 1 (by decide)⟩

/-- Claim C8: every resolved Line Selector is deduplicated and sorted
strictly ascending; in particular `"2,2,5"` resolves to `[2, 5]`. -/
theorem c8_selector_sorted_dedup :
    (∀ sel : List Char, (dedupSort (parseSelector sel)).Pairwise (· < ·)) ∧
      dedupSort (parseSelector (("2,2,5").toList)) = [2, 5] :=
  ⟨fun sel => dedupSort_pairwise_lt (parseSelector sel), by decide⟩

/-- Counterexample to claim C1 as stated: for the query `"b c"`, the
line `"ab cd"` contains the query verbatim and scores 14, while
`"b b b b b b b b"` does not contain it, is scored entirely by the
fuzzy stage (the non-exact branch), yet scores 16: the exact-containing
line does NOT score strictly higher, because the fuzzy word-matching
bonus of 2 per close word pair is unbounded. -/
theorem c1_counterexample :
    jsIncludes (lowerStr (("ab cd").toList)) (lowerStr (("b c").toList)) = true ∧
      jsIncludes (lowerStr (("b b b b b b b b").toList)) (lowerStr (("b c").toList)) = false ∧
      scoreLine (lowerStr (("b c").toList)) (("ab cd").toList) = 14 ∧
      scoreLine (lowerStr (("b c").toList)) (("b b b b b b b b").toList) = 16 ∧
      ¬(scoreLine (lowerStr (("b c").toList)) (("b b b b b b b b").toList) <
          scoreLine (lowerStr (("b c").toList)) (("ab cd").toList)) := by
  refine ⟨by decide, by decide, ?_, ?_, ?_⟩ <;> with_unfolding_all decide

/-- Claim C1 (amended): a line containing the lowercased query outranks
a non-containing line whose positive score comes from the fuzzy
similarity fallback alone, that is, whose fuzzy word-matching
contribution is 0; the similarity fallback contributes at most 3 while
an exact containment contributes at least 10.  (Without the restriction
on the word-matching contribution the claim is false, see the
counterexample.) -/
theorem c1_amended_exact_beats_pure_fuzzy (q a b : List Char)
    (ha : jsIncludes (lowerStr a) (lowerStr q) = true)
    (hb : jsIncludes (lowerStr b) (lowerStr q) = false)
    (hw : wordContribution (jsSplitWs (lowerStr q)) (jsSplitWs (lowerStr b)) = 0) :
    scoreLine (lowerStr q) b < scoreLine (lowerStr q) a := by
  have hA : 10 ≤ scoreLine (lowerStr q) a := scoreLine_ge_ten ha
  have hB : scoreLine (lowerStr q) b ≤ 3 := by
    unfold scoreLine
    rw [if_neg (by simp [hb]), hw, add_zero]
    exact fuzzyContribution_le_three _ _
  linarith

/-- Witness for the amended C1: query `"abcdef"`, exact line
`"abcdef"`, fuzzy-only line `"abc def"` (similarity 6/7, no word-match
contribution). -/
theorem c1_amended_exact_beats_pure_fuzzy_witness :
    jsIncludes (lowerStr (("abcdef").toList)) (lowerStr (("abcdef").toList)) = true ∧
      jsIncludes (lowerStr (("abc def").toList)) (lowerStr (("abcdef").toList)) = false ∧
      wordContribution (jsSplitWs (lowerStr (("abcdef").toList)))
          (jsSplitWs (lowerStr (("abc def").toList))) = 0 ∧
      scoreLine (lowerStr (("abcdef").toList)) (("abc def").toList) <
        scoreLine (lowerStr (("abcdef").toList)) (("abcdef").toList) :=
  ⟨by decide, by decide, by with_unfolding_all decide,
    c1_amended_exact_beats_pure_fuzzy (("abcdef").toList) (("abcdef").toList)
      (("abc def").toList) (by decide) (by decide) (by with_unfolding_all decide)⟩

/-- Counterexample to claim C2 as stated: appending `"x"` to a file
holding `"a\n"` makes `read_all` end with the empty line coming from
the final newline, not with `"x"`; and on first creation (no file) the
observed log length grows from 0 to 2 for a text with no line break,
not by 1. -/
theorem c2_counterexample :
    (readAll (some (appendMem (some (("a\n").toList)) (("x").toList)))).getLast? =
        some ([] : List Char) ∧
      some ([] : List Char) ≠ some (("x").toList) ∧
      (readAll none).length = 0 ∧
      (readAll (some (appendMem none (("x").toList)))).length = 2 := by
  refine ⟨by decide, by decide, rfl, by decide⟩

/-- Claim C2 (amended): after `append(t)` on a store whose content ends
with a newline (the invariant state after any append), `read_all`
returns the old lines with the trailing empty line replaced by the
lines of `t` followed by a new trailing empty line, and the log length
grows by the number of line breaks in `t` plus one.  When the file did
not exist, `read_all` afterwards returns the lines of `t` plus the
trailing empty line: length grows by the number of line breaks plus
two. -/
theorem c2_amended_append_read (c' t : List Char) :
    readAll (some (appendMem (some (c' ++ ['\n'])) t)) =
        (readAll (some (c' ++ ['\n']))).dropLast ++ splitNl t ++ [[]] ∧
      (readAll (some (appendMem (some (c' ++ ['\n'])) t))).length =
        (readAll (some (c' ++ ['\n']))).length + t.count '\n' + 1 ∧
      readAll (some (appendMem none t)) = splitNl t ++ [[]] ∧
      (readAll (some (appendMem none t))).length = (readAll none).length + t.count '\n' + 2 := by
  have happ : appendMem (some (c' ++ ['\n'])) t = c' ++ '\n' :: (t ++ ['\n']) := by
    simp [appendMem, endsWithNl_concat]
  have h1 : splitNl (c' ++ '\n' :: (t ++ ['\n'])) = splitNl c' ++ (splitNl t ++ [[]]) := by
    unfold splitNl
    rw [splitOnC_append_sep, splitOnC_concat_sep]
  have h2 : splitNl (c' ++ ['\n']) = splitNl c' ++ [[]] := splitNl_concat c'
  refine ⟨?_, ?_, ?_, ?_⟩
  · simp only [readAll, happ, h1, h2, List.dropLast_concat, List.append_assoc]
  · simp only [readAll, happ, h1, h2, List.length_append, splitNl_length,
      List.length_cons, List.length_nil]
    omega
  · simp only [appendMem, readAll]
    exact splitNl_concat t
  · simp only [appendMem, readAll, splitNl_concat, List.length_append, splitNl_length,
      List.length_cons, List.length_nil]
    omega

/-- Counterexample to claim C5 as stated: `max_results = -1` is a
non-positive integer, yet search does not behave as if it were 10: on a
log with two matching lines it returns 1 match where the default
returns 2 (`-1` is truthy in JS and flows into `slice(0, -1)`). -/
theorem c5_counterexample :
    (memorySearch (("a").toList) [("a").toList, ("a").toList] (some (-1))).length = 1 ∧
      (memorySearch (("a").toList) [("a").toList, ("a").toList] none).length = 2 ∧
      (memorySearch (("a").toList) [("a").toList, ("a").toList] (some 10)).length = 2 := by
  refine ⟨?_, ?_, ?_⟩ <;> with_unfolding_all decide

/-- Claim C5 (amended): a missing `max_results` and `max_results = 0`
behave as 10, but a negative `max_results = n` is passed through to
`slice(0, n)` and returns all but the last `|n|` of the sorted
matches. -/
theorem c5_amended_max_results (q : List Char) (lines : List (List Char)) :
    memorySearch q lines none = memorySearch q lines (some 10) ∧
      memorySearch q lines (some 0) = memorySearch q lines (some 10) ∧
      ∀ n : Int, n < 0 →
        memorySearch q lines (some n) =
          (sortDesc (buildMatches (lowerStr q) 0 lines)).take
            (((sortDesc (buildMatches (lowerStr q) 0 lines)).length : Int) + n).toNat := by
  refine ⟨rfl, rfl, ?_⟩
  intro n hn
  have hmr : effectiveMax (some n) = n := by
    simp only [effectiveMax]
    rw [if_neg (show ¬n = 0 by omega)]
  unfold memorySearch
  rw [hmr]
  unfold jsSliceTo
  rw [if_pos hn]

/-- Witness for the amended C5 at `max_results = -1` on a two-match
log. -/
theorem c5_amended_max_results_witness :
    ((-1 : Int) < 0) ∧
      memorySearch (("a").toList) [("a").toList, ("a").toList] (some (-1)) =
        [MatchRec.mk 1 (("a").toList) 15] :=
  ⟨by decide,
    ((c5_amended_max_results (("a").toList) [("a").toList, ("a").toList]).2.2 (-1)
        (by decide)).trans
      (by with_unfolding_all decide)⟩

/-- Claim C7: with a non-empty log and a selector that parses to at
least one number, `memory_get` keeps exactly the resolved line numbers
inside `[1, log length]` (out-of-range ones are silently omitted) and
answers `noneInRange` when none remain — an outcome distinct from
`invalidSelector`. -/
theorem c7_bounds_filter (sel : List Char) (log : List (List Char))
    (hlog : log ≠ []) (hsel : parseSelector sel ≠ []) :
    memoryGetStr sel log =
        (if (selResults (parseSelector sel) log).isEmpty
         then GetResult.noneInRange log.length
         else GetResult.ok (selResults (parseSelector sel) log)) ∧
      selResults (parseSelector sel) log =
        (dedupSort (parseSelector sel)).filterMap (fun n =>
          if 1 ≤ n ∧ n ≤ (log.length : Int)
          then some (n.toNat, log.getD (n.toNat - 1) []) else none) ∧
      GetResult.noneInRange log.length ≠ GetResult.invalidSelector := by
  refine ⟨?_, rfl, by intro h; exact GetResult.noConfusion h⟩
  unfold memoryGetStr
  rw [if_neg (by simp [hlog])]
  unfold memoryGetCore
  rw [if_neg (by simp [hsel])]

/-- Witness for C7: on the 3-line log, `"2-10"` succeeds with exactly
lines 2 and 3 while `"50"` reports `noneInRange`. -/
theorem c7_bounds_filter_witness :
    (([['a'], ['b'], ['c']] : List (List Char)) ≠ []) ∧
      parseSelector (("2-10").toList) ≠ [] ∧
      memoryGetStr (("2-10").toList) [['a'], ['b'], ['c']] =
        GetResult.ok [(2, ['b']), (3, ['c'])] ∧
      memoryGetStr (("50").toList) [['a'], ['b'], ['c']] = GetResult.noneInRange 3 :=
  ⟨by decide, by decide,
    ((c7_bounds_filter (("2-10").toList) [['a'], ['b'], ['c']] (by decide) (by decide)).1).trans
      (by decide),
    ((c7_bounds_filter (("50").toList) [['a'], ['b'], ['c']] (by decide) (by decide)).1).trans
      (by decide)⟩

lemma dedupSort_singleton (n : Int) : dedupSort [n] = [n] := by
  simp [dedupSort, dedupFirst, dedupGo, sortAsc, insertAsc]

lemma memoryGetArr_last_concat (xs : List (List Char)) (y : List Char) :
    memoryGetArr [((xs ++ [y]).length : Int)] (xs ++ [y]) =
      GetResult.ok [((xs ++ [y]).length, y)] := by
  have hlen : (xs ++ [y]).length = xs.length + 1 := by simp
  unfold memoryGetArr
  rw [if_neg (by simp)]
  unfold memoryGetCore
  rw [if_neg (by simp)]
  have hsel : selResults [((xs ++ [y]).length : Int)] (xs ++ [y]) =
      [((xs ++ [y]).length, y)] := by
    unfold selResults
    rw [dedupSort_singleton]
    have hcond : 1 ≤ ((xs ++ [y]).length : Int) ∧
        ((xs ++ [y]).length : Int) ≤ ((xs ++ [y]).length : Int) := by
      constructor
      · rw [hlen]
        omega
      · exact le_refl _
    rw [List.filterMap_cons]
    simp only [if_pos hcond, List.filterMap_nil]
    have htn : (((xs ++ [y]).length : Int)).toNat = (xs ++ [y]).length := Int.toNat_natCast _
    rw [htn, hlen]
    simp only [Nat.add_sub_cancel]
    rw [getD_concat]
  rw [hsel]
  rw [if_neg (by simp)]

/-- Claim C9: after every append the backing content ends with a
newline, so `read_all` (splitting on the newline) ends with an empty
final element; that phantom empty line counts toward the observed log
length and `memory_get` can fetch it at index `length`. -/
theorem c9_trailing_phantom (st : Option (List Char)) (t : List Char) :
    endsWithNl (appendMem st t) = true ∧
      (readAll (some (appendMem st t))).getLast? = some [] ∧
      memoryGetArr [((readAll (some (appendMem st t))).length : Int)]
          (readAll (some (appendMem st t))) =
        GetResult.ok [((readAll (some (appendMem st t))).length, [])] := by
  obtain ⟨d, hd⟩ := appendMem_concat st t
  rw [hd]
  have hsplit : readAll (some (d ++ ['\n'])) = splitNl d ++ [[]] := splitNl_concat d
  rw [hsplit]
  exact ⟨endsWithNl_concat d, List.getLast?_concat _,
    memoryGetArr_last_concat (splitNl d) []⟩

/-- Claim C10: for the empty query on a non-empty log, every line takes
the exact-substring branch (every string contains the empty string) and
scores at least 10, so search returns `min (log length) max_results`
matches rather than an empty result. -/
theorem c10_empty_query (lines : List (List Char)) (mr : Int)
    (hl : lines ≠ []) (hmr : 0 < mr) :
    (∀ l ∈ lines, jsIncludes (lowerStr l) [] = true ∧ 10 ≤ scoreLine [] l) ∧
      (memorySearch [] lines (some mr)).length = min lines.length mr.toNat ∧
      memorySearch [] lines (some mr) ≠ [] := by
  have hsc10 : ∀ l : List Char, 10 ≤ scoreLine [] l :=
    fun l => scoreLine_ge_ten (jsIncludes_nil _)
  have hpos : ∀ l ∈ lines, 0 < scoreLine [] l :=
    fun l _ => lt_of_lt_of_le (by norm_num) (hsc10 l)
  have hlen2 : (sortDesc (buildMatches [] 0 lines)).length = lines.length := by
    rw [(sortDesc_perm _).length_eq]
    exact buildMatches_length_pos hpos 0
  have hlen : (memorySearch [] lines (some mr)).length = min lines.length mr.toNat := by
    unfold memorySearch jsSliceTo
    have hmr' : effectiveMax (some mr) = mr := by
      simp only [effectiveMax]
      rw [if_neg (show ¬mr = 0 by omega)]
    rw [hmr']
    rw [if_neg (not_lt.mpr (le_of_lt hmr))]
    rw [List.length_take]
    simp only [lowerStr, List.map_nil]
    rw [hlen2]
    exact Nat.min_comm _ _
  refine ⟨fun l _ => ⟨jsIncludes_nil _, hsc10 l⟩, hlen, ?_⟩
  have hp : 0 < (memorySearch [] lines (some mr)).length := by
    rw [hlen]
    have h1 : 0 < lines.length := List.length_pos.mpr hl
    have h2 : 0 < mr.toNat := by omega
    exact Nat.lt_min.mpr ⟨h1, h2⟩
  exact List.ne_nil_of_length_pos hp

/-- Witness for C10 on the one-line log with `max_results = 1`. -/
theorem c10_empty_query_witness :
    (([("q").toList] : List (List Char)) ≠ []) ∧ ((0 : Int) < 1) ∧
      (memorySearch [] [("q").toList] (some 1)).length = 1 ∧
      memorySearch [] [("q").toList] (some 1) ≠ [] :=
  ⟨by decide, by decide,
    ((c10_empty_query [("q").toList] 1 (by decide) (by decide)).2.1).trans (by decide),
    (c10_empty_query [("q").toList] 1 (by decide) (by decide)).2.2⟩

end SlimPA
